import Mathlib

/-!
Verification of the Site Residency & Hopping Detection Engine of the mdgo
repository (`mdgo/coordination.py`): distance-trajectory construction
(`trajectory`), hysteresis-based site assignment with episode reduction and
hopping frequency (`find_nearest`), and the cooldown-filtered hop-in/hop-out
event extractor (`find_in_n_out`).

Distances are modelled as rationals.  The Savitzky–Golay smoothing filter
(`savgol_filter`, lines 56–57 and 116–117 of the source) is the external
Smoothing Adapter: the definitions below consume the trajectory as the state
machine sees it, i.e. already smoothed.  Candidate identifiers are the
integer atom ids (strings in Python, parsed with `int(...)` at the end of the
machine); a trajectory is an insertion-ordered association list, matching
Python dict iteration order, which is what `min(trj, key=...)` ties break on.

Python raises on some degenerate inputs (empty dict, empty series,
`list.pop()` on an empty list).  Total functions below either guard those
cases behind hypotheses of the theorems (empty trajectory) or return
`Option` (`extractHopEvents`, whose `pop` can genuinely be reached on an
empty list a priori).
-/

namespace Mdgo

/-- A distance trajectory: insertion-ordered map from candidate atom id to
its per-frame distance series (`dist_values` in the source). -/
abbrev Traj : Type := List (ℕ × List ℚ)

/-- Dict lookup `trj.get(k)`: the series of the first binding of key `k`
(keys are unique in a Python dict; first binding is the faithful reading). -/
def getSeries : Traj → ℕ → List ℚ
  | [], _ => []
  | (k, s) :: rest, key => if k = key then s else getSeries rest key

/-- `trj.get(k)[t]`: distance of candidate `k` at frame `t`. -/
def getDist (trj : Traj) (k : ℕ) (t : ℕ) : ℚ :=
  (getSeries trj k).getD t 0

/-- `time_span = len(list(trj.values())[0])`: length of the first series
(the source raises on an empty dict; `0` here, guarded by hypotheses). -/
def timeSpan : Traj → ℕ
  | [] => 0
  | (_, s) :: _ => s.length

/-- Fold underlying Python's `min(trj, key=lambda k: trj[k][time])`:
keeps the current best `(key, distance)` and replaces it only on a strictly
smaller distance, so ties go to the earlier key, as in Python `min`. -/
def argminAux (t : ℕ) : Traj → ℕ × ℚ → ℕ × ℚ
  | [], acc => acc
  | (k, s) :: rest, acc =>
      if s.getD t 0 < acc.2 then argminAux t rest (k, s.getD t 0)
      else argminAux t rest acc

/-- `min(trj, key=lambda k: trj[k][time])` together with its distance
(the source raises on an empty dict; junk value `(0, 0)` there, guarded). -/
def minKey (trj : Traj) (t : ℕ) : ℕ × ℚ :=
  match trj with
  | [] => (0, 0)
  | (k, s) :: rest => argminAux t rest (k, s.getD t 0)

/-- `old_site_distance` of lines 63–66: the sentinel `100` when the
previous frame was unbound, else the previous site's distance at frame `t`. -/
def oldDist (trj : Traj) (prev : Option ℕ) (t : ℕ) : ℚ :=
  match prev with
  | none => 100
  | some s => getDist trj s t

/-- One transition of the site assignment state machine, lines 62–77 of
`find_nearest` (identically lines 122–137 of `find_in_n_out`):
`none` is Python's `0` placeholder for "unbound", `some k` a bound site key.
Returns the `(site, distance)` recorded for the current frame. -/
def assignStep (trj : Traj) (dBind dHop : ℚ) (prev : Option ℕ) (t : ℕ) :
    Option ℕ × ℚ :=
  if dHop < oldDist trj prev t then
    if dBind < (minKey trj t).2 then (none, 100)
    else (some (minKey trj t).1, (minKey trj t).2)
  else (prev, oldDist trj prev t)

/-- The machine run for `fuel` frames starting at frame `t` with previous
state `prev`, emitting one `(site, distance)` pair per frame. -/
def assignAux (trj : Traj) (dBind dHop : ℚ) (prev : Option ℕ) (t : ℕ) :
    ℕ → List (Option ℕ × ℚ)
  | 0 => []
  | n + 1 =>
      assignStep trj dBind dHop prev t
        :: assignAux trj dBind dHop (assignStep trj dBind dHop prev t).1 (t + 1) n

/-- The full AssignmentSequence (lines 58–77): frame 0 takes the
minimum-distance candidate unconditionally, later frames follow
`assignStep`.  Empty trajectory (on which the source raises) gives `[]`. -/
def assignSites (trj : Traj) (dBind dHop : ℚ) : List (Option ℕ × ℚ) :=
  match trj with
  | [] => []
  | _ :: _ =>
      let m := minKey trj 0
      (some m.1, m.2) :: assignAux trj dBind dHop (some m.1) 1 (timeSpan trj - 1)

/-- `sites = [int(i) for i in sites]` paired with `site_distance`, i.e. the
rows of `sites_and_distance_array` (lines 78–79): the `0` placeholder stays
`0`, a string key becomes its integer value. -/
def assignSitesInt (trj : Traj) (dBind dHop : ℚ) : List (ℕ × ℚ) :=
  (assignSites trj dBind dHop).map (fun p => (p.1.getD 0, p.2))

/-- Number of positions where a list entry differs from its predecessor:
`(np.diff(l) != 0).sum()`. -/
def countChanges : List ℕ → ℕ
  | [] => 0
  | [_] => 0
  | a :: b :: rest => (if a = b then 0 else 1) + countChanges (b :: rest)

/-- Line 100: `change = (np.diff([i for i in sites if i != 0]) != 0).sum()`. -/
def changeCount (sites : List ℕ) : ℕ :=
  countChanges (sites.filter (fun s => decide ¬s = 0))

/-- The episode loop of lines 80–99 over `sites_and_distance_array`:
`arr` is the full array (indexed by `closest_step` for the running best
distance), `i` the current index, `cs` the running `closest_step`, `prev`
the running `previous_site`, and the last argument the remaining rows.
The final `steps.append(closest_step)` (line 99, `previous_site` is never
`None`) is the `[cs]` in the base case. -/
def episodeAux (arr : List (ℕ × ℚ)) : ℕ → ℕ → ℕ → List (ℕ × ℚ) → List ℕ
  | _, cs, _, [] => [cs]
  | i, cs, prev, (site, d) :: rest =>
      if site = 0 then episodeAux arr (i + 1) cs prev rest
      else if site = prev then
        if d < (arr.getD cs (0, 0)).2 then episodeAux arr (i + 1) i prev rest
        else episodeAux arr (i + 1) cs prev rest
      else cs :: episodeAux arr (i + 1) i site rest

/-- Episode closest-approach frame indices (`steps`) for a given
sites-and-distance array (`previous_site` starts as `arr[0][0]`; the source
raises on an empty array, modelled as `[0]` junk, guarded by hypotheses). -/
def episodeSteps (arr : List (ℕ × ℚ)) : List ℕ :=
  match arr with
  | [] => [0]
  | (s0, _) :: _ => episodeAux arr 0 0 s0 arr

/-- Line 101: `frequency = change / (time_span * time_step)`. -/
def hopFrequency (sites : List ℕ) (tspan : ℕ) (timeStep : ℚ) : ℚ :=
  (changeCount sites : ℚ) / ((tspan : ℚ) * timeStep)

/-- `find_nearest(trj, time_step, distance, hopping_cutoff)` on the already
smoothed trajectory: returns `(sites, frequency, steps)`. -/
def find_nearest (trj : Traj) (timeStep : ℚ) (dBind dHop : ℚ) :
    List ℕ × ℚ × List ℕ :=
  let arr := assignSitesInt trj dBind dHop
  let sites := arr.map Prod.fst
  (sites, hopFrequency sites (timeSpan trj) timeStep, episodeSteps arr)

/-- The cooldown event loop of lines 140–163: `i` the current index, `last`
the previous site label, `sIn`/`sOut` the accumulated `steps_in`/`steps_out`
in reverse, `ic`/`oc` the `in_cool`/`out_cool` counters.  Python's
`list.pop()` raises on an empty list, hence the `Option`. -/
def hopAux (cool : ℕ) (i last : ℕ) (sIn sOut : List ℕ) (ic oc : ℕ) :
    List ℕ → Option (List ℕ × List ℕ)
  | [] => some (sIn.reverse, sOut.reverse)
  | s :: rest =>
      if last = s then hopAux cool (i + 1) s sIn sOut (ic + 1) (oc + 1) rest
      else if last = 0 then
        if oc < cool then
          match sOut with
          | [] => none
          | _ :: sOut' => hopAux cool (i + 1) s (i :: sIn) sOut' 1 (oc + 1) rest
        else hopAux cool (i + 1) s (i :: sIn) sOut 1 (oc + 1) rest
      else if s = 0 then
        if ic < cool then
          match sIn with
          | [] => none
          | _ :: sIn' => hopAux cool (i + 1) s sIn' (i :: sOut) (ic + 1) 1 rest
        else hopAux cool (i + 1) s sIn (i :: sOut) (ic + 1) 1 rest
      else hopAux cool (i + 1) s sIn sOut (ic + 1) (oc + 1) rest

/-- `extractHopEvents(sites, cool)`: the hop event extractor on an integer
site sequence (lines 140–163 of `find_in_n_out`, after the shared state
machine).  `last = sites[0]` raises on an empty sequence, hence `none`. -/
def extractHopEvents (sites : List ℕ) (cool : ℕ) : Option (List ℕ × List ℕ) :=
  match sites with
  | [] => none
  | s0 :: _ => hopAux cool 0 s0 [] [] cool cool sites

/-- `find_in_n_out(trj, distance, hopping_cutoff, cool)` on the already
smoothed trajectory: the state machine of lines 118–138 (identical to
`find_nearest`'s) followed by the event loop. -/
def find_in_n_out (trj : Traj) (dBind dHop : ℚ) (cool : ℕ) :
    Option (List ℕ × List ℕ) :=
  extractHopEvents ((assignSitesInt trj dBind dHop).map Prod.fst) cool

/-- Specification-level list of hop-in indices: the indices (counted from
`i`, with `last` the label preceding the list) where an unbound→bound
(`0 → nonzero`) transition occurs.  Used to state and prove the `cool = 0`
behaviour of the extractor. -/
def insFrom (i last : ℕ) : List ℕ → List ℕ
  | [] => []
  | s :: rest =>
      if last = 0 ∧ ¬s = 0 then i :: insFrom (i + 1) s rest
      else insFrom (i + 1) s rest

/-- Specification-level list of hop-out indices (`nonzero → 0` transitions),
mirror of `insFrom`. -/
def outsFrom (i last : ℕ) : List ℕ → List ℕ
  | [] => []
  | s :: rest =>
      if ¬last = 0 ∧ s = 0 then i :: outsFrom (i + 1) s rest
      else outsFrom (i + 1) s rest

/-! ### Distance Trajectory Builder (`trajectory`, lines 18–40)

The external collaborators are abstracted as in §6 of the spec: `observed t`
is the list of candidate atom ids returned by the geometric selector for
frame `t` (the `shell.atoms` of the capture-radius query), and `dist t k`
the minimum-image distance (`distance_array`) between the reference atom and
candidate `k` at frame `t`.  Frames are `0, ..., n - 1` with
`n = run_end - run_start`. -/

/-- Pass-1 inner loop: append each observed id not yet present, preserving
first-appearance (dict insertion) order. -/
def insertNewKeys (acc : List ℕ) (ids : List ℕ) : List ℕ :=
  ids.foldl (fun a id => if id ∈ a then a else a ++ [id]) acc

/-- Pass 1 (lines 25–33): union of observed ids over all frames, in
first-appearance order. -/
def collectKeys (observed : ℕ → List ℕ) (n : ℕ) : List ℕ :=
  (List.range n).foldl (fun a t => insertNewKeys a (observed t)) []

/-- One step of pass 2 (lines 36–38): at frame `t`, overwrite index `t` of
every key's series with the computed distance. -/
def fillFrame (dist : ℕ → ℕ → ℚ) (t : ℕ) (trj : Traj) : Traj :=
  trj.map (fun p => (p.1, p.2.set t (dist t p.1)))

/-- `trajectory(nvt_run, li_atom, run_start, run_end, species,
selection_dict, distance)`: `none` when the species is not a key of the
selection mapping (lines 22–24), otherwise pass 1 (keys, each initialised
to `np.full(n, 100.0)`) followed by pass 2 over all frames. -/
def trajectory (selDict : List (String × String)) (species : String)
    (n : ℕ) (observed : ℕ → List ℕ) (dist : ℕ → ℕ → ℚ) : Option Traj :=
  if species ∈ selDict.map Prod.fst then
    some ((List.range n).foldl (fun acc t => fillFrame dist t acc)
      ((collectKeys observed n).map (fun k => (k, List.replicate n (100 : ℚ)))))
  else none

/-! ### Concrete scenarios -/

/-- The round-trip trajectory `{A: [1,1,6,6,1,1], B: [5,5,1,1,5,5]}` with
`A = 1`, `B = 2`. -/
def trjRound : Traj := [(1, [1, 1, 6, 6, 1, 1]), (2, [5, 5, 1, 1, 5, 5])]

/-- Trajectory whose assignment makes exactly one hop: sites `[1, 2]`. -/
def trjTwoHop : Traj := [(1, [1, 6]), (2, [5, 1])]

/-- Trajectory on which the machine sticks to site `1` at frame 1 even
though site `2` is strictly closer there. -/
def trjSticky : Traj := [(1, [1, 3]), (2, [5, 1])]

/-- Trajectory whose frame 1 leaves every candidate beyond both thresholds,
producing an unbound frame. -/
def trjUnbound : Traj := [(1, [1, 200]), (2, [5, 200])]

/-- Single-threshold nearest-neighbor assignment, following the spec's
words for the degenerate `D_bind = D_hop = D` mode: the frame's globally
minimum-distance candidate when that minimum is within `D`, else unbound. -/
def nearestNeighborAssign (trj : Traj) (D : ℚ) (t : ℕ) : ℕ :=
  if (minKey trj t).2 ≤ D then (minKey trj t).1 else 0

/-- A one-species selection mapping for concrete builder runs. -/
def selDictX : List (String × String) := [("X", "type X")]

/-- Candidate `7` is inside the capture radius at frame 0 only. -/
def observedX : ℕ → List ℕ := fun t => if t = 0 then [7] else []

/-- Measured minimum-image distances: `1` at frame 0, `50` afterwards. -/
def distX : ℕ → ℕ → ℚ := fun t _ => if t = 0 then 1 else 50

/-! ### Lemmas on the builder passes -/

/-- Setting only indices other than `t` leaves index `t` unchanged. -/
lemma foldl_set_getD_not_mem (f : ℕ → ℚ) :
    ∀ (L : List ℕ) (s : List ℚ) (t : ℕ), t ∉ L →
      (L.foldl (fun ser u => ser.set u (f u)) s).getD t 0 = s.getD t 0
  | [], _, _, _ => rfl
  | u :: L, s, t, h => by
      have hut : u ≠ t := fun e => h (e ▸ List.mem_cons_self u L)
      have ht : t ∉ L := fun m => h (List.mem_cons_of_mem u m)
      rw [List.foldl_cons, foldl_set_getD_not_mem f L _ t ht,
        List.getD_eq_getElem?_getD, List.getElem?_set_ne hut,
        ← List.getD_eq_getElem?_getD]

/-- After setting every index of `L`, an in-range `t ∈ L` holds `f t`. -/
lemma foldl_set_getD_mem (f : ℕ → ℚ) :
    ∀ (L : List ℕ) (s : List ℚ) (t : ℕ), t ∈ L → t < s.length →
      (L.foldl (fun ser u => ser.set u (f u)) s).getD t 0 = f t
  | [], _, t, h, _ => absurd h (List.not_mem_nil t)
  | u :: L, s, t, h, hlen => by
      rw [List.foldl_cons]
      by_cases hL : t ∈ L
      · exact foldl_set_getD_mem f L _ t hL (by simpa using hlen)
      · have htu : t = u := by
          rcases List.mem_cons.mp h with h1 | h2
          · exact h1
          · exact absurd h2 hL
        subst htu
        rw [foldl_set_getD_not_mem f L _ t hL, List.getD_eq_getElem?_getD,
          List.getElem?_set_eq_of_lt _ hlen]
        rfl

/-- Pass 2 acts on each key's series independently. -/
lemma foldl_fillFrame_map (dist : ℕ → ℕ → ℚ) :
    ∀ (L : List ℕ) (trj : Traj),
      L.foldl (fun acc t => fillFrame dist t acc) trj
        = trj.map
            (fun p => (p.1, L.foldl (fun ser t => ser.set t (dist t p.1)) p.2))
  | [], trj => by simp
  | u :: L, trj => by
      rw [List.foldl_cons, foldl_fillFrame_map dist L _]
      simp only [fillFrame, List.map_map]
      rfl

/-! ### Claim theorems -/

/-- C9: when the requested species is not a key of the selection mapping,
the builder returns `None` (no partial trajectory). -/
theorem c9_invalid_species (selDict : List (String × String)) (species : String)
    (n : ℕ) (observed : ℕ → List ℕ) (dist : ℕ → ℕ → ℚ)
    (h : species ∉ selDict.map Prod.fst) :
    trajectory selDict species n observed dist = none := by
  simp [trajectory, h]

/-- Witness for C9 at a concrete unrecognised species. -/
theorem c9_invalid_species_witness :
    trajectory selDictX "Y" 2 observedX distX = none :=
  c9_invalid_species selDictX "Y" 2 observedX distX (by decide)

/-- C2 (counterexample): candidate `7` is observed only at frame 0; pass 2
still overwrites its frame-1 entry with the measured distance `50`, so the
sentinel `100.0` does not survive the distance-fill for unobserved frames. -/
theorem c2_counterexample :
    trajectory selDictX "X" 2 observedX distX = some [(7, [1, 50])] ∧
    (7 : ℕ) ∉ observedX 1 ∧
    getDist [(7, [(1 : ℚ), 50])] 7 1 ≠ 100 := by
  refine ⟨by decide, by decide, by decide⟩

/-- C2 (amended): every frame of every stored series — observed within the
capture radius or not — holds the computed minimum-image distance after
pass 2; the pass-1 sentinel survives only where that distance itself is
`100.0`. -/
theorem c2_distance_fill_overwrites (selDict : List (String × String))
    (species : String) (n : ℕ) (observed : ℕ → List ℕ) (dist : ℕ → ℕ → ℚ)
    (trj : Traj) (h : trajectory selDict species n observed dist = some trj)
    (k : ℕ) (ser : List ℚ) (hmem : (k, ser) ∈ trj) (t : ℕ) (ht : t < n) :
    ser.getD t 0 = dist t k := by
  unfold trajectory at h
  by_cases hsp : species ∈ selDict.map Prod.fst
  · rw [if_pos hsp, Option.some.injEq] at h
    rw [← h, foldl_fillFrame_map] at hmem
    rcases List.mem_map.mp hmem with ⟨p, hp, hpe⟩
    rcases List.mem_map.mp hp with ⟨k0, _, rfl⟩
    obtain ⟨rfl, rfl⟩ := Prod.mk.injEq .. |>.mp hpe
    exact foldl_set_getD_mem _ _ _ t (List.mem_range.mpr ht) (by simpa using ht)
  · rw [if_neg hsp] at h
    exact absurd h (by simp)

/-- Witness for C2 (amended) at the concrete builder run. -/
theorem c2_distance_fill_overwrites_witness :
    ([(1 : ℚ), 50]).getD 1 0 = distX 1 7 :=
  c2_distance_fill_overwrites selDictX "X" 2 observedX distX [(7, [1, 50])]
    (by decide) 7 [1, 50] (by decide) 1 (by decide)

/-- C1: the state machine on `trjRound` with `D_bind = 2`, `D_hop = 4`
yields sites `[A,A,B,B,A,A]`, `2` hops, and frequency `2/(6*time_step)`. -/
theorem c1_roundtrip (ts : ℚ) :
    (find_nearest trjRound ts 2 4).1 = [1, 1, 2, 2, 1, 1] ∧
    changeCount (find_nearest trjRound ts 2 4).1 = 2 ∧
    (find_nearest trjRound ts 2 4).2.1 = 2 / (6 * ts) := by
  have hs : (assignSitesInt trjRound 2 4).map Prod.fst = [1, 1, 2, 2, 1, 1] := by
    decide
  refine ⟨hs, ?_, ?_⟩
  · show changeCount ((assignSitesInt trjRound 2 4).map Prod.fst) = 2
    rw [hs]
    decide
  · show hopFrequency ((assignSitesInt trjRound 2 4).map Prod.fst)
      (timeSpan trjRound) ts = 2 / (6 * ts)
    rw [hs]
    simp only [hopFrequency, show changeCount [1, 1, 2, 2, 1, 1] = 2 from rfl,
      show timeSpan trjRound = 6 from rfl]
    norm_num

/-- C5: on sites `[A,0,A,0,0,0,B]` with `cool = 3` the cancelled pair
(hop-out at 1, hop-in at 2) is absent and index 6 is a hop-in. -/
theorem c5_cooldown_cancellation :
    extractHopEvents [1, 0, 1, 0, 0, 0, 2] 3 = some ([6], [3]) ∧
    (1 : ℕ) ∉ ((extractHopEvents [1, 0, 1, 0, 0, 0, 2] 3).getD ([], [])).2 ∧
    (2 : ℕ) ∉ ((extractHopEvents [1, 0, 1, 0, 0, 0, 2] 3).getD ([], [])).1 ∧
    (6 : ℕ) ∈ ((extractHopEvents [1, 0, 1, 0, 0, 0, 2] 3).getD ([], [])).1 := by
  decide

/-! ### Hop event extractor lemmas -/

/-- With `cool = 0` the counter tests `oc < 0` / `ic < 0` never fire, so the
event loop just accumulates every transition through the unbound sentinel. -/
lemma hopAux_zero_eq :
    ∀ (l : List ℕ) (i last : ℕ) (sIn sOut : List ℕ) (ic oc : ℕ),
      hopAux 0 i last sIn sOut ic oc l
        = some (sIn.reverse ++ insFrom i last l, sOut.reverse ++ outsFrom i last l)
  | [], i, last, sIn, sOut, ic, oc => by
      simp [hopAux, insFrom, outsFrom]
  | s :: rest, i, last, sIn, sOut, ic, oc => by
      by_cases h1 : last = s
      · have hin : ¬(last = 0 ∧ ¬s = 0) := fun ⟨h0, hs⟩ => hs (h1 ▸ h0)
        have hout : ¬(¬last = 0 ∧ s = 0) := fun ⟨h0, hs⟩ => h0 (h1.trans hs)
        simp only [hopAux, if_pos h1, insFrom, outsFrom, if_neg hin, if_neg hout]
        exact hopAux_zero_eq rest (i + 1) s sIn sOut (ic + 1) (oc + 1)
      · by_cases h2 : last = 0
        · have hs : ¬s = 0 := fun e => h1 (h2.trans e.symm)
          simp only [hopAux, if_neg h1, if_pos h2, Nat.not_lt_zero, if_false,
            insFrom, outsFrom, if_pos (And.intro h2 hs),
            if_neg (fun h : ¬last = 0 ∧ s = 0 => h.1 h2)]
          rw [hopAux_zero_eq rest (i + 1) s (i :: sIn) sOut 1 (oc + 1)]
          simp
        · by_cases h3 : s = 0
          · simp only [hopAux, if_neg h1, if_neg h2, if_pos h3, Nat.not_lt_zero,
              if_false, insFrom, outsFrom,
              if_neg (fun h : last = 0 ∧ ¬s = 0 => h2 h.1),
              if_pos (And.intro h2 h3)]
            rw [hopAux_zero_eq rest (i + 1) s sIn (i :: sOut) (ic + 1) 1]
            simp
          · simp only [hopAux, if_neg h1, if_neg h2, if_neg h3, insFrom, outsFrom,
              if_neg (fun h : last = 0 ∧ ¬s = 0 => h2 h.1),
              if_neg (fun h : ¬last = 0 ∧ s = 0 => h3 h.2)]
            exact hopAux_zero_eq rest (i + 1) s sIn sOut (ic + 1) (oc + 1)

/-- Every `0 → nonzero` transition index is in `insFrom`. -/
lemma mem_insFrom :
    ∀ (l : List ℕ) (i last : ℕ) (j : ℕ), j < l.length →
      (if j = 0 then last else l.getD (j - 1) 0) = 0 → l.getD j 0 ≠ 0 →
      i + j ∈ insFrom i last l
  | [], _, _, j, hj, _, _ => absurd hj (Nat.not_lt_zero j)
  | s :: rest, i, last, 0, _, hprev, hcur => by
      have hs : ¬s = 0 := hcur
      simp only [insFrom, if_pos (And.intro (by simpa using hprev) hs)]
      exact List.mem_cons_self _ _
  | s :: rest, i, last, k + 1, hj, hprev, hcur => by
      have ih := mem_insFrom rest (i + 1) s k (by simpa using hj)
        (by
          rcases k with _ | m
          · simpa using hprev
          · simpa using hprev)
        (by simpa using hcur)
      have : i + 1 + k = i + (k + 1) := by omega
      rw [this] at ih
      unfold insFrom
      by_cases hc : last = 0 ∧ ¬s = 0
      · rw [if_pos hc]
        exact List.mem_cons_of_mem _ ih
      · rw [if_neg hc]
        exact ih

/-- Every `nonzero → 0` transition index is in `outsFrom`. -/
lemma mem_outsFrom :
    ∀ (l : List ℕ) (i last : ℕ) (j : ℕ), j < l.length →
      (if j = 0 then last else l.getD (j - 1) 0) ≠ 0 → l.getD j 0 = 0 →
      i + j ∈ outsFrom i last l
  | [], _, _, j, hj, _, _ => absurd hj (Nat.not_lt_zero j)
  | s :: rest, i, last, 0, _, hprev, hcur => by
      have hs : s = 0 := hcur
      simp only [outsFrom, if_pos (And.intro (by simpa using hprev) hs)]
      exact List.mem_cons_self _ _
  | s :: rest, i, last, k + 1, hj, hprev, hcur => by
      have ih := mem_outsFrom rest (i + 1) s k (by simpa using hj)
        (by
          rcases k with _ | m
          · simpa using hprev
          · simpa using hprev)
        (by simpa using hcur)
      have : i + 1 + k = i + (k + 1) := by omega
      rw [this] at ih
      unfold outsFrom
      by_cases hc : ¬last = 0 ∧ s = 0
      · rw [if_pos hc]
        exact List.mem_cons_of_mem _ ih
      · rw [if_neg hc]
        exact ih

/-- C7: with `cool = 0` the extractor cancels nothing: it succeeds, and every
unbound→bound transition index is in the hop-in list and every
bound→unbound transition index is in the hop-out list. -/
theorem c7_cool_zero_no_cancellation (sites : List ℕ) (h : sites ≠ []) :
    ∃ ins outs, extractHopEvents sites 0 = some (ins, outs) ∧
      (∀ i, 0 < i → i < sites.length → sites.getD (i - 1) 0 = 0 →
        sites.getD i 0 ≠ 0 → i ∈ ins) ∧
      (∀ i, 0 < i → i < sites.length → sites.getD (i - 1) 0 ≠ 0 →
        sites.getD i 0 = 0 → i ∈ outs) := by
  obtain ⟨s0, rest, rfl⟩ : ∃ a t, sites = a :: t := by
    rcases sites with _ | ⟨a, t⟩
    · exact absurd rfl h
    · exact ⟨a, t, rfl⟩
  refine ⟨insFrom 0 s0 (s0 :: rest), outsFrom 0 s0 (s0 :: rest), ?_, ?_, ?_⟩
  · show hopAux 0 0 s0 [] [] 0 0 (s0 :: rest) = _
    rw [hopAux_zero_eq]
    simp
  · intro i hi hlen hprev hcur
    have := mem_insFrom (s0 :: rest) 0 s0 i hlen
      (by rw [if_neg (Nat.pos_iff_ne_zero.mp hi)]; exact hprev) hcur
    simpa using this
  · intro i hi hlen hprev hcur
    have := mem_outsFrom (s0 :: rest) 0 s0 i hlen
      (by rw [if_neg (Nat.pos_iff_ne_zero.mp hi)]; exact hprev) hcur
    simpa using this

/-- Witness for C7 on the concrete sequence `[1, 0, 2]`. -/
theorem c7_cool_zero_no_cancellation_witness :
    ∃ ins outs, extractHopEvents [1, 0, 2] 0 = some (ins, outs) ∧
      (∀ i, 0 < i → i < 3 → [1, 0, 2].getD (i - 1) 0 = 0 →
        [1, 0, 2].getD i 0 ≠ 0 → i ∈ ins) ∧
      (∀ i, 0 < i → i < 3 → [1, 0, 2].getD (i - 1) 0 ≠ 0 →
        [1, 0, 2].getD i 0 = 0 → i ∈ outs) :=
  c7_cool_zero_no_cancellation [1, 0, 2] (by decide)

/-- A strictly descending list stays strictly descending after consing an
upper bound. -/
lemma chain'_gt_cons {i : ℕ} {l : List ℕ} (hb : ∀ x ∈ l, x < i)
    (hc : List.Chain' (· > ·) l) : List.Chain' (· > ·) (i :: l) := by
  rcases l with _ | ⟨a, t⟩
  · exact List.chain'_singleton i
  · exact List.chain'_cons.mpr ⟨hb a (List.mem_cons_self a t), hc⟩

/-- Cooldown-counter invariant for the event loop: the accumulators are
strictly descending with entries below the current index, and whenever a
cancellation test can fire the list it would pop is non-empty.  Under this
invariant the loop never hits an empty pop and returns strictly increasing
index lists. -/
lemma hopAux_inv (cool : ℕ) :
    ∀ (l : List ℕ) (i last : ℕ) (sIn sOut : List ℕ) (ic oc : ℕ),
      List.Chain' (· > ·) sIn → List.Chain' (· > ·) sOut →
      (∀ x ∈ sIn, x < i) → (∀ x ∈ sOut, x < i) →
      (oc < cool → last = 0 → sOut ≠ []) →
      (ic < cool → last ≠ 0 → sIn ≠ []) →
      ∃ ins outs, hopAux cool i last sIn sOut ic oc l = some (ins, outs) ∧
        List.Chain' (· < ·) ins ∧ List.Chain' (· < ·) outs
  | [], i, last, sIn, sOut, ic, oc, hcI, hcO, _, _, _, _ =>
      ⟨sIn.reverse, sOut.reverse, rfl,
        List.chain'_reverse.mpr hcI, List.chain'_reverse.mpr hcO⟩
  | s :: rest, i, last, sIn, sOut, ic, oc, hcI, hcO, hbI, hbO, hO, hI => by
      by_cases h1 : last = s
      · rw [show hopAux cool i last sIn sOut ic oc (s :: rest)
            = hopAux cool (i + 1) s sIn sOut (ic + 1) (oc + 1) rest from by
              simp [hopAux, h1]]
        exact hopAux_inv cool rest (i + 1) s sIn sOut (ic + 1) (oc + 1) hcI hcO
          (fun x hx => Nat.lt_succ_of_lt (hbI x hx))
          (fun x hx => Nat.lt_succ_of_lt (hbO x hx))
          (fun ho hs => hO (Nat.lt_of_succ_lt ho) (h1 ▸ hs))
          (fun hic hs => hI (Nat.lt_of_succ_lt hic) (h1 ▸ hs))
      · by_cases h2 : last = 0
        · have hs : s ≠ 0 := fun e => h1 (h2.trans e.symm)
          by_cases h3 : oc < cool
          · obtain ⟨o, sOut', rfl⟩ : ∃ o t, sOut = o :: t := by
              rcases sOut with _ | ⟨o, t⟩
              · exact absurd rfl (hO h3 h2)
              · exact ⟨o, t, rfl⟩
            rw [show hopAux cool i last sIn (o :: sOut') ic oc (s :: rest)
                = hopAux cool (i + 1) s (i :: sIn) sOut' 1 (oc + 1) rest from by
                  simp [hopAux, h1, h2, h3, Ne.symm hs]]
            exact hopAux_inv cool rest (i + 1) s (i :: sIn) sOut' 1 (oc + 1)
              (chain'_gt_cons hbI hcI) hcO.tail
              (fun x hx => by
                rcases List.mem_cons.mp hx with rfl | hx
                · exact Nat.lt_succ_self x
                · exact Nat.lt_succ_of_lt (hbI x hx))
              (fun x hx =>
                Nat.lt_succ_of_lt (hbO x (List.mem_cons_of_mem o hx)))
              (fun _ hz => absurd hz hs)
              (fun _ _ => List.cons_ne_nil i sIn)
          · rw [show hopAux cool i last sIn sOut ic oc (s :: rest)
                = hopAux cool (i + 1) s (i :: sIn) sOut 1 (oc + 1) rest from by
                  simp [hopAux, h1, h2, h3, Ne.symm hs]]
            exact hopAux_inv cool rest (i + 1) s (i :: sIn) sOut 1 (oc + 1)
              (chain'_gt_cons hbI hcI) hcO
              (fun x hx => by
                rcases List.mem_cons.mp hx with rfl | hx
                · exact Nat.lt_succ_self x
                · exact Nat.lt_succ_of_lt (hbI x hx))
              (fun x hx => Nat.lt_succ_of_lt (hbO x hx))
              (fun ho _ => absurd (Nat.lt_of_succ_lt ho) h3)
              (fun _ _ => List.cons_ne_nil i sIn)
        · by_cases h4 : s = 0
          · by_cases h5 : ic < cool
            · obtain ⟨a, sIn', rfl⟩ : ∃ a t, sIn = a :: t := by
                rcases sIn with _ | ⟨a, t⟩
                · exact absurd rfl (hI h5 h2)
                · exact ⟨a, t, rfl⟩
              rw [show hopAux cool i last (a :: sIn') sOut ic oc (s :: rest)
                  = hopAux cool (i + 1) s sIn' (i :: sOut) (ic + 1) 1 rest from by
                    simp [hopAux, h1, h2, h4, h5]]
              exact hopAux_inv cool rest (i + 1) s sIn' (i :: sOut) (ic + 1) 1
                hcI.tail (chain'_gt_cons hbO hcO)
                (fun x hx =>
                  Nat.lt_succ_of_lt (hbI x (List.mem_cons_of_mem a hx)))
                (fun x hx => by
                  rcases List.mem_cons.mp hx with rfl | hx
                  · exact Nat.lt_succ_self x
                  · exact Nat.lt_succ_of_lt (hbO x hx))
                (fun _ _ => List.cons_ne_nil i sOut)
                (fun _ hz => absurd h4 hz)
            · rw [show hopAux cool i last sIn sOut ic oc (s :: rest)
                  = hopAux cool (i + 1) s sIn (i :: sOut) (ic + 1) 1 rest from by
                    simp [hopAux, h1, h2, h4, h5]]
              exact hopAux_inv cool rest (i + 1) s sIn (i :: sOut) (ic + 1) 1
                hcI (chain'_gt_cons hbO hcO)
                (fun x hx => Nat.lt_succ_of_lt (hbI x hx))
                (fun x hx => by
                  rcases List.mem_cons.mp hx with rfl | hx
                  · exact Nat.lt_succ_self x
                  · exact Nat.lt_succ_of_lt (hbO x hx))
                (fun _ _ => List.cons_ne_nil i sOut)
                (fun _ hz => absurd h4 hz)
          · rw [show hopAux cool i last sIn sOut ic oc (s :: rest)
                = hopAux cool (i + 1) s sIn sOut (ic + 1) (oc + 1) rest from by
                  simp [hopAux, h1, h2, h4]]
            exact hopAux_inv cool rest (i + 1) s sIn sOut (ic + 1) (oc + 1)
              hcI hcO
              (fun x hx => Nat.lt_succ_of_lt (hbI x hx))
              (fun x hx => Nat.lt_succ_of_lt (hbO x hx))
              (fun _ hz => absurd hz h4)
              (fun hic _ => hI (Nat.lt_of_succ_lt hic) h2)

/-- C10: for every non-empty site sequence and every cooldown window, the
extractor's pops never hit an empty list (it returns a result), and both
returned lists are strictly increasing sequences of frame indices. -/
theorem c10_extractor_safe (sites : List ℕ) (cool : ℕ) (h : sites ≠ []) :
    ∃ ins outs, extractHopEvents sites cool = some (ins, outs) ∧
      List.Chain' (· < ·) ins ∧ List.Chain' (· < ·) outs := by
  obtain ⟨s0, rest, rfl⟩ : ∃ a t, sites = a :: t := by
    rcases sites with _ | ⟨a, t⟩
    · exact absurd rfl h
    · exact ⟨a, t, rfl⟩
  exact hopAux_inv cool (s0 :: rest) 0 s0 [] [] cool cool
    List.chain'_nil List.chain'_nil
    (fun x hx => absurd hx (List.not_mem_nil x))
    (fun x hx => absurd hx (List.not_mem_nil x))
    (fun hlt _ => absurd hlt (lt_irrefl cool))
    (fun hlt _ => absurd hlt (lt_irrefl cool))

/-- Witness for C10 on the cooldown-cancellation sequence. -/
theorem c10_extractor_safe_witness :
    ∃ ins outs, extractHopEvents [1, 0, 1, 0, 0, 0, 2] 3 = some (ins, outs) ∧
      List.Chain' (· < ·) ins ∧ List.Chain' (· < ·) outs :=
  c10_extractor_safe [1, 0, 1, 0, 0, 0, 2] 3 (by decide)

/-! ### Episode reducer lemmas -/

/-- The episode loop emits one index per strict change of the running
nonzero site label, plus the final open episode: its output length is the
number of strict changes in `prev` followed by the zero-removed labels of
the remaining rows, plus one. -/
lemma episodeAux_length (arr : List (ℕ × ℚ)) :
    ∀ (l : List (ℕ × ℚ)) (i cs prev : ℕ),
      (episodeAux arr i cs prev l).length
        = countChanges (prev :: (l.map Prod.fst).filter (fun s => decide ¬s = 0))
            + 1
  | [], i, cs, prev => by simp [episodeAux, countChanges]
  | (site, d) :: rest, i, cs, prev => by
      by_cases h0 : site = 0
      · rw [show episodeAux arr i cs prev ((site, d) :: rest)
            = episodeAux arr (i + 1) cs prev rest from by
              simp [episodeAux, h0]]
        rw [episodeAux_length arr rest (i + 1) cs prev]
        have hfil :
            (((site, d) :: rest).map Prod.fst).filter (fun s => decide ¬s = 0)
              = (rest.map Prod.fst).filter (fun s => decide ¬s = 0) := by
          simp [List.filter_cons, h0]
        rw [hfil]
      · have hfil :
            (((site, d) :: rest).map Prod.fst).filter (fun s => decide ¬s = 0)
              = site :: (rest.map Prod.fst).filter (fun s => decide ¬s = 0) := by
          simp [List.filter_cons, h0]
        by_cases hp : site = prev
        · rw [show episodeAux arr i cs prev ((site, d) :: rest)
              = if d < (arr.getD cs (0, 0)).2 then episodeAux arr (i + 1) i prev rest
                else episodeAux arr (i + 1) cs prev rest from by
                simp [episodeAux, h0, hp, hp ▸ h0]]
          rw [hfil, countChanges, if_pos hp.symm, hp]
          by_cases hd : d < (arr.getD cs (0, 0)).2
          · rw [if_pos hd, episodeAux_length arr rest (i + 1) i prev]
            omega
          · rw [if_neg hd, episodeAux_length arr rest (i + 1) cs prev]
            omega
        · rw [show episodeAux arr i cs prev ((site, d) :: rest)
              = cs :: episodeAux arr (i + 1) i site rest from by
                simp [episodeAux, h0, hp]]
          rw [hfil, countChanges, if_neg (fun e => hp e.symm), List.length_cons,
            episodeAux_length arr rest (i + 1) i site]
          omega

/-- C3 (counterexample): on the trajectory with sites `[1, 2]` the reducer
emits 2 episode indices, but the filtered sequence `[1, 2]` has only 1
strict change (and no two consecutive filtered entries are equal), refuting
both the bound and the equality case of the claim. -/
theorem c3_counterexample :
    ¬ ((find_nearest trjTwoHop 1 2 4).2.2.length ≤
        countChanges
          (((find_nearest trjTwoHop 1 2 4).1).filter (fun s => decide ¬s = 0))) := by
  decide

/-- C3 (amended): for every sites-and-distance sequence whose first site
label is nonzero (as the state machine guarantees), the number of emitted
episode indices equals the number of strict changes of the zero-removed
site-label subsequence plus one (the final open episode). -/
theorem c3_episode_count (arr : List (ℕ × ℚ)) (s0 : ℕ) (d0 : ℚ)
    (rest : List (ℕ × ℚ)) (harr : arr = (s0, d0) :: rest) (h0 : s0 ≠ 0) :
    (episodeSteps arr).length
      = countChanges ((arr.map Prod.fst).filter (fun s => decide ¬s = 0)) + 1 := by
  subst harr
  show (episodeAux ((s0, d0) :: rest) 0 0 s0 ((s0, d0) :: rest)).length = _
  rw [episodeAux_length]
  have hfil :
      ((((s0, d0) :: rest).map Prod.fst).filter (fun s => decide ¬s = 0))
        = s0 :: (rest.map Prod.fst).filter (fun s => decide ¬s = 0) := by
    simp [List.filter_cons, h0]
  rw [hfil, countChanges, if_pos rfl]
  omega

/-- Witness for C3 (amended) on the one-hop sequence `[(1,1), (2,1)]`. -/
theorem c3_episode_count_witness :
    (episodeSteps [(1, (1 : ℚ)), (2, 1)]).length
      = countChanges (([(1, (1 : ℚ)), (2, 1)].map Prod.fst).filter
          (fun s => decide ¬s = 0)) + 1 :=
  c3_episode_count [(1, 1), (2, 1)] 1 1 [(2, 1)] rfl (by decide)

/-! ### State machine lemmas -/

/-- The machine emits one pair per frame of fuel. -/
lemma assignAux_length (trj : Traj) (dBind dHop : ℚ) :
    ∀ (fuel : ℕ) (prev : Option ℕ) (t : ℕ),
      (assignAux trj dBind dHop prev t fuel).length = fuel
  | 0, _, _ => rfl
  | n + 1, prev, t => by
      rw [assignAux, List.length_cons, assignAux_length trj dBind dHop n _ _]

/-- On a non-empty trajectory `assignSites` is frame-0 entry followed by the
machine run from frame 1. -/
lemma assignSites_cons (trj : Traj) (dBind dHop : ℚ) (h : trj ≠ []) :
    assignSites trj dBind dHop
      = (some (minKey trj 0).1, (minKey trj 0).2)
          :: assignAux trj dBind dHop (some (minKey trj 0).1) 1
              (timeSpan trj - 1) := by
  rcases trj with _ | ⟨p, rest⟩
  · exact absurd rfl h
  · rfl

/-- The running minimum never exceeds the accumulator's distance. -/
lemma argminAux_le_acc (t : ℕ) :
    ∀ (l : Traj) (acc : ℕ × ℚ), (argminAux t l acc).2 ≤ acc.2
  | [], _ => le_refl _
  | (k, s) :: rest, acc => by
      unfold argminAux
      by_cases h : s.getD t 0 < acc.2
      · rw [if_pos h]
        exact le_trans (argminAux_le_acc t rest (k, s.getD t 0)) (le_of_lt h)
      · rw [if_neg h]
        exact argminAux_le_acc t rest acc

/-- The running minimum never exceeds any scanned entry's distance. -/
lemma argminAux_le_mem (t : ℕ) :
    ∀ (l : Traj) (acc : ℕ × ℚ) (p : ℕ × List ℚ), p ∈ l →
      (argminAux t l acc).2 ≤ p.2.getD t 0
  | [], _, p, hp => absurd hp (List.not_mem_nil p)
  | (k, s) :: rest, acc, p, hp => by
      unfold argminAux
      rcases List.mem_cons.mp hp with rfl | hmem
      · by_cases h : s.getD t 0 < acc.2
        · rw [if_pos h]
          exact argminAux_le_acc t rest (k, s.getD t 0)
        · rw [if_neg h]
          exact le_trans (argminAux_le_acc t rest acc) (not_lt.mp h)
      · by_cases h : s.getD t 0 < acc.2
        · rw [if_pos h]
          exact argminAux_le_mem t rest (k, s.getD t 0) p hmem
        · rw [if_neg h]
          exact argminAux_le_mem t rest acc p hmem

/-- `minKey` attains the minimum distance over all trajectory entries. -/
lemma minKey_le (trj : Traj) (t : ℕ) :
    ∀ p ∈ trj, (minKey trj t).2 ≤ p.2.getD t 0 := by
  intro p hp
  rcases trj with _ | ⟨⟨k, s⟩, rest⟩
  · exact absurd hp (List.not_mem_nil p)
  · show (argminAux t rest (k, s.getD t 0)).2 ≤ _
    rcases List.mem_cons.mp hp with rfl | hmem
    · exact argminAux_le_acc t rest (k, s.getD t 0)
    · exact argminAux_le_mem t rest (k, s.getD t 0) p hmem

/-- The fold's chosen key is the accumulator's or one of the scanned keys. -/
lemma argminAux_fst_mem (t : ℕ) :
    ∀ (l : Traj) (acc : ℕ × ℚ),
      (argminAux t l acc).1 = acc.1 ∨ (argminAux t l acc).1 ∈ l.map Prod.fst
  | [], _ => Or.inl rfl
  | (k, s) :: rest, acc => by
      unfold argminAux
      by_cases h : s.getD t 0 < acc.2
      · rw [if_pos h]
        rcases argminAux_fst_mem t rest (k, s.getD t 0) with he | hm
        · exact Or.inr (by rw [he]; exact List.mem_cons_self _ _)
        · exact Or.inr (List.mem_cons_of_mem _ hm)
      · rw [if_neg h]
        rcases argminAux_fst_mem t rest acc with he | hm
        · exact Or.inl he
        · exact Or.inr (List.mem_cons_of_mem _ hm)

/-- `minKey` returns one of the trajectory's keys. -/
lemma minKey_mem (trj : Traj) (t : ℕ) (h : trj ≠ []) :
    (minKey trj t).1 ∈ trj.map Prod.fst := by
  rcases trj with _ | ⟨⟨k, s⟩, rest⟩
  · exact absurd rfl h
  · show (argminAux t rest (k, s.getD t 0)).1 ∈ _
    rcases argminAux_fst_mem t rest (k, s.getD t 0) with he | hm
    · rw [he]
      exact List.mem_cons_self _ _
    · exact List.mem_cons_of_mem _ hm

/-- A present key's looked-up series is an entry of the trajectory. -/
lemma getSeries_mem :
    ∀ (trj : Traj) (s : ℕ), s ∈ trj.map Prod.fst → (s, getSeries trj s) ∈ trj
  | [], s, h => absurd h (by simp)
  | (k, ser) :: rest, s, h => by
      by_cases hk : k = s
      · subst hk
        rw [show getSeries ((k, ser) :: rest) k = ser from by simp [getSeries]]
        exact List.mem_cons_self _ _
      · have hs : s ∈ rest.map Prod.fst := by
          rw [List.map_cons] at h
          rcases List.mem_cons.mp h with he | hm
          · exact absurd he.symm hk
          · exact hm
        rw [show getSeries ((k, ser) :: rest) s = getSeries rest s from by
          simp [getSeries, hk]]
        exact List.mem_cons_of_mem _ (getSeries_mem rest s hs)

/-- The frame minimum never exceeds a tracked key's distance. -/
lemma minKey_le_getDist (trj : Traj) (t : ℕ) (s : ℕ)
    (hs : s ∈ trj.map Prod.fst) : (minKey trj t).2 ≤ getDist trj s t :=
  minKey_le trj t (s, getSeries trj s) (getSeries_mem trj s hs)

/-- A step starting from a valid state lands on a valid state: its site is
`none` or one of the trajectory's keys. -/
lemma assignStep_valid (trj : Traj) (dBind dHop : ℚ) (prev : Option ℕ)
    (t : ℕ) (h : trj ≠ [])
    (hv : ∀ s, prev = some s → s ∈ trj.map Prod.fst) :
    ∀ s, (assignStep trj dBind dHop prev t).1 = some s →
      s ∈ trj.map Prod.fst := by
  intro s hs
  unfold assignStep at hs
  by_cases h1 : dHop < oldDist trj prev t
  · rw [if_pos h1] at hs
    by_cases h2 : dBind < (minKey trj t).2
    · rw [if_pos h2] at hs
      exact absurd hs (by simp)
    · rw [if_neg h2] at hs
      have he : (minKey trj t).1 = s := by simpa using hs
      rw [← he]
      exact minKey_mem trj t h
  · rw [if_neg h1] at hs
    exact hv s hs

/-- An unbound step records exactly the sentinel distance `100`. -/
lemma assignStep_none_dist (trj : Traj) (dBind dHop : ℚ) (prev : Option ℕ)
    (t : ℕ) (h : (assignStep trj dBind dHop prev t).1 = none) :
    (assignStep trj dBind dHop prev t).2 = 100 := by
  unfold assignStep at h ⊢
  by_cases h1 : dHop < oldDist trj prev t
  · rw [if_pos h1] at h ⊢
    by_cases h2 : dBind < (minKey trj t).2
    · rw [if_pos h2]
    · rw [if_neg h2] at h
      exact absurd h (by simp)
  · rw [if_neg h1] at h ⊢
    show oldDist trj prev t = 100
    have hp : prev = none := h
    rw [hp]
    rfl

/-- Every unbound entry the machine emits carries the sentinel `100`. -/
lemma assignAux_none_dist (trj : Traj) (dBind dHop : ℚ) :
    ∀ (fuel : ℕ) (prev : Option ℕ) (t : ℕ) (p : Option ℕ × ℚ),
      p ∈ assignAux trj dBind dHop prev t fuel → p.1 = none → p.2 = 100
  | 0, _, _, p, hp, _ => absurd hp (List.not_mem_nil p)
  | n + 1, prev, t, p, hp, hnone => by
      rw [assignAux] at hp
      rcases List.mem_cons.mp hp with rfl | hmem
      · exact assignStep_none_dist trj dBind dHop prev t hnone
      · exact assignAux_none_dist trj dBind dHop n _ (t + 1) p hmem hnone

/-- Every bound entry the machine emits (from a valid start) is one of the
trajectory's keys. -/
lemma assignAux_site_valid (trj : Traj) (dBind dHop : ℚ) (h : trj ≠ []) :
    ∀ (fuel : ℕ) (prev : Option ℕ) (t : ℕ),
      (∀ s, prev = some s → s ∈ trj.map Prod.fst) →
      ∀ p ∈ assignAux trj dBind dHop prev t fuel,
        ∀ s, p.1 = some s → s ∈ trj.map Prod.fst
  | 0, _, _, _, p, hp => absurd hp (List.not_mem_nil p)
  | n + 1, prev, t, hv, p, hp => by
      rw [assignAux] at hp
      rcases List.mem_cons.mp hp with rfl | hmem
      · exact assignStep_valid trj dBind dHop prev t h hv
      · exact assignAux_site_valid trj dBind dHop h n _ (t + 1)
          (assignStep_valid trj dBind dHop prev t h hv) p hmem

/-- C8: on a non-empty trajectory with a positive frame count, the site list
has length `T`, and frame 0 is assigned the `minKey` candidate — a choice
made with no threshold comparison (`minKey` takes neither `D_bind` nor
`D_hop`) — which attains the global minimum distance at frame 0. -/
theorem c8_length_and_initial_site (trj : Traj) (ts dBind dHop : ℚ)
    (h : trj ≠ []) (hT : 0 < timeSpan trj) :
    (find_nearest trj ts dBind dHop).1.length = timeSpan trj ∧
    (find_nearest trj ts dBind dHop).1.getD 0 0 = (minKey trj 0).1 ∧
    ∀ p ∈ trj, (minKey trj 0).2 ≤ p.2.getD 0 0 := by
  refine ⟨?_, ?_, minKey_le trj 0⟩
  · show (((assignSites trj dBind dHop).map
        (fun p => (p.1.getD 0, p.2))).map Prod.fst).length = _
    rw [List.length_map, List.length_map, assignSites_cons trj dBind dHop h,
      List.length_cons, assignAux_length]
    omega
  · show (((assignSites trj dBind dHop).map
        (fun p => (p.1.getD 0, p.2))).map Prod.fst).getD 0 0 = _
    rw [assignSites_cons trj dBind dHop h]
    rfl

/-- Witness for C8 on the round-trip trajectory. -/
theorem c8_length_and_initial_site_witness :
    (find_nearest trjRound 1 2 4).1.length = timeSpan trjRound ∧
    (find_nearest trjRound 1 2 4).1.getD 0 0 = (minKey trjRound 0).1 ∧
    ∀ p ∈ trjRound, (minKey trjRound 0).2 ≤ p.2.getD 0 0 :=
  c8_length_and_initial_site trjRound 1 2 4 (by decide) (by decide)

/-- C6: every row of the sites-and-distance array whose site label is the
unbound sentinel `0` carries recorded distance exactly `100`, provided no
candidate key is the reserved label `0` (atom ids are positive). -/
theorem c6_unbound_sentinel (trj : Traj) (dBind dHop : ℚ)
    (hkeys : ∀ k ∈ trj.map Prod.fst, k ≠ 0) :
    ∀ p ∈ assignSitesInt trj dBind dHop, p.1 = 0 → p.2 = 100 := by
  intro p hp h0
  rcases List.mem_map.mp hp with ⟨q, hq, rfl⟩
  by_cases h : trj = []
  · rw [h] at hq
    exact absurd hq (by simp [assignSites])
  · rw [assignSites_cons trj dBind dHop h] at hq
    rcases List.mem_cons.mp hq with rfl | hmem
    · exact absurd h0 (by simpa using hkeys _ (minKey_mem trj 0 h))
    · rcases hq1 : q.1 with _ | s
      · exact assignAux_none_dist trj dBind dHop _ _ 1 q hmem hq1
      · have hsmem : s ∈ trj.map Prod.fst :=
          assignAux_site_valid trj dBind dHop h _ _ 1
            (fun s' hs' => by
              rw [← Option.some.inj hs']
              exact minKey_mem trj 0 h) q hmem s hq1
        rw [hq1] at h0
        exact absurd (by simpa using h0) (hkeys s hsmem)

/-- Witness for C6: the unbound frame of `trjUnbound` records distance 100. -/
theorem c6_unbound_sentinel_witness : ((0 : ℕ), (100 : ℚ)).2 = 100 :=
  c6_unbound_sentinel trjUnbound 2 4 (by decide) (0, 100) (by decide) rfl

/-- With equal thresholds `D < 100`, frame `t ≥ 1` (from a valid previous
state) is bound exactly when the frame's global minimum distance is within
`D`. -/
lemma assignAux_bound_iff (trj : Traj) (D : ℚ) (h : trj ≠ []) (hD : D < 100) :
    ∀ (fuel : ℕ) (prev : Option ℕ) (t : ℕ),
      (∀ s, prev = some s → s ∈ trj.map Prod.fst) →
      ∀ j, j < fuel →
        (((assignAux trj D D prev t fuel).getD j (none, 0)).1 ≠ none ↔
          (minKey trj (t + j)).2 ≤ D)
  | 0, _, _, _, j, hj => absurd hj (Nat.not_lt_zero j)
  | n + 1, prev, t, hv, 0, _ => by
      rw [assignAux, List.getD_cons_zero, Nat.add_zero]
      unfold assignStep
      by_cases h1 : D < oldDist trj prev t
      · rw [if_pos h1]
        by_cases h2 : D < (minKey trj t).2
        · rw [if_pos h2]
          exact ⟨fun hc => absurd rfl hc, fun hle => absurd hle (not_le.mpr h2)⟩
        · rw [if_neg h2]
          exact ⟨fun _ => not_lt.mp h2, fun _ => Option.some_ne_none _⟩
      · rw [if_neg h1]
        have hprev : ∃ s, prev = some s := by
          rcases prev with _ | s
          · exact absurd hD (by simpa [oldDist] using h1)
          · exact ⟨s, rfl⟩
        rcases hprev with ⟨s, rfl⟩
        have hsmem := hv s rfl
        have hold : ¬D < getDist trj s t := by simpa [oldDist] using h1
        constructor
        · intro _
          exact le_trans (minKey_le_getDist trj t s hsmem) (not_lt.mp hold)
        · intro _
          exact Option.some_ne_none s
  | n + 1, prev, t, hv, j + 1, hj => by
      rw [assignAux, List.getD_cons_succ,
        show t + (j + 1) = (t + 1) + j from by omega]
      exact assignAux_bound_iff trj D h hD n _ (t + 1)
        (assignStep_valid trj D D prev t h hv) j (Nat.lt_of_succ_lt_succ hj)

/-- Reading the cast site label at an in-range index. -/
lemma map_fst_getD (l : List (Option ℕ × ℚ)) (t : ℕ) (ht : t < l.length) :
    ((l.map (fun p => (p.1.getD 0, p.2))).map Prod.fst).getD t 0
      = (l.getD t (none, 0)).1.getD 0 := by
  rw [List.getD_eq_getElem?_getD, List.getD_eq_getElem?_getD,
    List.getElem?_eq_getElem (by simpa using ht),
    List.getElem?_eq_getElem ht]
  simp

/-- C4 (counterexample): with `D_bind = D_hop = 4` on `trjSticky`, frame 1
keeps site `1` (its distance `3 ≤ 4`) although candidate `2` is the global
minimum at distance `1 ≤ 4`, so the machine is not the single-threshold
nearest-neighbor assignment. -/
theorem c4_counterexample :
    (find_nearest trjSticky 1 4 4).1.getD 1 0 = 1 ∧
    nearestNeighborAssign trjSticky 4 1 = 2 ∧
    (find_nearest trjSticky 1 4 4).1.getD 1 0
      ≠ nearestNeighborAssign trjSticky 4 1 := by
  decide

/-- C4 (amended): with `D_bind = D_hop = D < 100` (and positive atom ids),
the machine agrees with the single-threshold nearest-neighbor assignment on
*boundedness* at every frame `t ≥ 1` — the frame is unbound exactly when
the global minimum distance exceeds `D` — though the bound site itself may
stay the previous site rather than the nearest candidate. -/
theorem c4_degenerate_bound_agreement (trj : Traj) (ts D : ℚ) (h : trj ≠ [])
    (hD : D < 100) (hkeys : ∀ k ∈ trj.map Prod.fst, k ≠ 0)
    (t : ℕ) (h0 : 0 < t) (hT : t < timeSpan trj) :
    ((find_nearest trj ts D D).1.getD t 0 = 0 ↔
      nearestNeighborAssign trj D t = 0) := by
  obtain ⟨j, rfl⟩ : ∃ j, t = j + 1 := ⟨t - 1, by omega⟩
  have hlen : (assignSites trj D D).length = timeSpan trj := by
    rw [assignSites_cons trj D D h, List.length_cons, assignAux_length]
    omega
  have hmap : (find_nearest trj ts D D).1.getD (j + 1) 0
      = ((assignSites trj D D).getD (j + 1) (none, 0)).1.getD 0 := by
    show (((assignSites trj D D).map
        (fun p => (p.1.getD 0, p.2))).map Prod.fst).getD (j + 1) 0 = _
    exact map_fst_getD _ _ (by rw [hlen]; exact hT)
  have hentry : (assignSites trj D D).getD (j + 1) (none, 0)
      = (assignAux trj D D (some (minKey trj 0).1) 1
          (timeSpan trj - 1)).getD j (none, 0) := by
    rw [assignSites_cons trj D D h, List.getD_cons_succ]
  have hjfuel : j < timeSpan trj - 1 := by omega
  have hv : ∀ s, (some (minKey trj 0).1 : Option ℕ) = some s →
      s ∈ trj.map Prod.fst := by
    intro s hs
    rw [← Option.some.inj hs]
    exact minKey_mem trj 0 h
  have hbi := assignAux_bound_iff trj D h hD (timeSpan trj - 1) _ 1 hv j hjfuel
  rw [show 1 + j = j + 1 from by omega] at hbi
  have hval : ∀ s,
      ((assignAux trj D D (some (minKey trj 0).1) 1
        (timeSpan trj - 1)).getD j (none, 0)).1 = some s →
      s ∈ trj.map Prod.fst := by
    intro s hs
    have hjl : j < (assignAux trj D D (some (minKey trj 0).1) 1
        (timeSpan trj - 1)).length := by
      rw [assignAux_length]
      exact hjfuel
    have hmem : (assignAux trj D D (some (minKey trj 0).1) 1
        (timeSpan trj - 1)).getD j (none, 0)
        ∈ assignAux trj D D (some (minKey trj 0).1) 1 (timeSpan trj - 1) := by
      rw [List.getD_eq_getElem _ _ hjl]
      exact List.getElem_mem _
    exact assignAux_site_valid trj D D h (timeSpan trj - 1) _ 1 hv _ hmem s hs
  rw [hmap, hentry]
  unfold nearestNeighborAssign
  by_cases hle : (minKey trj (j + 1)).2 ≤ D
  · rw [if_pos hle]
    have honeq := hbi.mpr hle
    rcases ho : ((assignAux trj D D (some (minKey trj 0).1) 1
        (timeSpan trj - 1)).getD j (none, 0)).1 with _ | s
    · exact absurd ho honeq
    · constructor
      · intro hz
        have hs0 : s = 0 := by simpa using hz
        exact absurd hs0 (hkeys s (hval s ho))
      · intro hmin0
        exact absurd hmin0 (hkeys _ (minKey_mem trj (j + 1) h))
  · rw [if_neg hle]
    have hnone : ((assignAux trj D D (some (minKey trj 0).1) 1
        (timeSpan trj - 1)).getD j (none, 0)).1 = none := by
      by_contra hne
      exact hle (hbi.mp hne)
    rw [hnone]
    simp

/-- Witness for C4 (amended) on the round-trip trajectory at frame 2. -/
theorem c4_degenerate_bound_agreement_witness :
    ((find_nearest trjRound 1 3 3).1.getD 2 0 = 0 ↔
      nearestNeighborAssign trjRound 3 2 = 0) :=
  c4_degenerate_bound_agreement trjRound 1 3 (by decide) (by decide)
    (by decide) 2 (by decide) (by decide)

end Mdgo
